import Mathlib

/-!
Verification development for the Elevator-Control-System repository.

This file gives a shallow embedding of the algorithmic core of the
repository (src/lib/elevatorDispatch.ts, src/lib/elevatorFactory.ts,
src/services/ElevatorControlService.ts) and proves the stated
properties of that core against the embedding.  Floors and scores are
modelled as `Int` (JS numbers used only integrally here), JS `Set` as
`Finset Int` (no construct of the embedded logic observes insertion
order), and `Math.random()` draws as an externally supplied stream
`rng : Nat → Nat`, one index per draw, reduced modulo the needed
range.  `Date.now()` is modelled by a `now : Nat` parameter.
-/

namespace Elev

/-- src/lib/constants.ts: `SYSTEM_CONFIG.BUILDING.FLOORS = 10`. -/
def FLOORS : Nat := 10

/-- src/lib/constants.ts: `SYSTEM_CONFIG.UI.MAX_LOG_ENTRIES = 100`. -/
def MAX_LOG_ENTRIES : Nat := 100

/-- `ELEVATOR_STATES`: `'idle' | 'up' | 'down'`. -/
inductive Direction where
  | idle : Direction
  | up : Direction
  | down : Direction
deriving DecidableEq

/-- `CALL_DIRECTIONS`: `'up' | 'down'`. -/
inductive CallDirection where
  | up : CallDirection
  | down : CallDirection
deriving DecidableEq

/-- The string value shared between `CALL_DIRECTIONS` and
`ELEVATOR_STATES` (`'up'` is the same string in both), so a call
direction compares equal to the corresponding elevator direction. -/
def CallDirection.toDir : CallDirection → Direction
  | .up => .up
  | .down => .down

/-- `LOG_TYPES`. -/
inductive LogType where
  | call : LogType
  | pickup : LogType
  | dropoff : LogType
  | movement : LogType
  | system : LogType
deriving DecidableEq

/-- src/types/elevator.ts `Elevator`. -/
structure Elevator where
  id : Nat
  currentFloor : Int
  direction : Direction
  isMoving : Bool
  isLoading : Bool
  destinationFloors : Finset Int
  passengers : Nat
  lastActivity : Nat
deriving DecidableEq

/-- src/types/elevator.ts `FloorCall`.  The source id is the string
`call-<counter>-<date>`, injective in the factory counter; it is
modelled by that counter value. -/
structure FloorCall where
  id : Nat
  floor : Int
  direction : CallDirection
  timestamp : Nat
  assignedElevator : Option Nat
deriving DecidableEq

/-- src/types/elevator.ts `LogEntry` (free message text omitted;
nothing in the embedded logic reads it). -/
structure LogEntry where
  ltype : LogType
  timestamp : Nat
  elevatorId : Option Nat
  floor : Option Int
deriving DecidableEq

/-- src/types/elevator.ts `ElevatorSystemState`. -/
structure SystemState where
  elevators : List Elevator
  pendingCalls : List FloorCall
  logs : List LogEntry
  isSimulationRunning : Bool
  systemStartTime : Nat
  totalCallsProcessed : Nat
deriving DecidableEq

/-! ## Dispatcher (src/lib/elevatorDispatch.ts), pure functions -/

/-- `ElevatorDispatcher.canPickupWithoutDirectionChange`. -/
def canPickupWithoutDirectionChange (e : Elevator) (call : FloorCall) : Bool :=
  if e.direction = Direction.idle then true
  else if e.direction = call.direction.toDir then
    match call.direction with
    | .up => decide (e.currentFloor ≤ call.floor)
    | .down => decide (call.floor ≤ e.currentFloor)
  else false

/-- `ElevatorDispatcher.calculateElevatorScore`. -/
def calculateElevatorScore (e : Elevator) (call : FloorCall) : Int :=
  let distance : Int := |e.currentFloor - call.floor|
  let s1 : Int := max 0 (100 - distance * 10)
  let s2 : Int := if e.direction = call.direction.toDir then s1 + 50 else s1
  let s3 : Int := if e.direction = Direction.idle then s2 + 25 else s2
  let s4 : Int := if canPickupWithoutDirectionChange e call then s3 + 75 else s3
  s4 - (e.destinationFloors.card : Int) * 5

/-- The filter at the head of `findBestElevator`:
`elevators.filter(e => !e.isMoving && !e.isLoading)`. -/
def availableElevators (elevators : List Elevator) : List Elevator :=
  elevators.filter (fun e => !e.isMoving && !e.isLoading)

/-- Stable insertion used to model JavaScript `Array.prototype.sort`
with comparator `(a, b) => b.score - a.score`: an element is placed
after every element of strictly greater key and before every element
of smaller-or-equal key, which together with `sortByScoreDesc` below
reproduces exactly a stable descending sort. -/
def insertDesc (key : α → Int) (x : α) : List α → List α
  | [] => [x]
  | y :: ys => if key y ≤ key x then x :: y :: ys else y :: insertDesc key x ys

/-- Stable descending sort (model of the JS stable `sort` call in
`findBestElevator`). -/
def sortByScoreDesc (key : α → Int) : List α → List α
  | [] => []
  | x :: xs => insertDesc key x (sortByScoreDesc key xs)

/-- `ElevatorDispatcher.findBestElevator`. -/
def findBestElevator (elevators : List Elevator) (call : FloorCall) : Option Elevator :=
  let available := availableElevators elevators
  if available.isEmpty then none
  else
    let scored := available.map (fun e => (e, calculateElevatorScore e call))
    match sortByScoreDesc (fun p => p.2) scored with
    | [] => none
    | p :: _ => some p.1

/-- `ElevatorDispatcher.isCallCompatibleWithDirection`. -/
def isCallCompatibleWithDirection (call : FloorCall) (dir : Direction) : Prop :=
  dir = Direction.idle ∨ call.direction.toDir = dir

instance (call : FloorCall) (dir : Direction) :
    Decidable (isCallCompatibleWithDirection call dir) := by
  unfold isCallCompatibleWithDirection; infer_instance

/-- `ElevatorDispatcher.shouldElevatorStop`. -/
def shouldElevatorStop (e : Elevator) (floor : Int) (pendingCalls : List FloorCall) : Prop :=
  floor ∈ e.destinationFloors ∨
    ∃ c ∈ pendingCalls, c.floor = floor ∧ c.assignedElevator = some e.id ∧
      isCallCompatibleWithDirection c e.direction

instance (e : Elevator) (floor : Int) (pendingCalls : List FloorCall) :
    Decidable (shouldElevatorStop e floor pendingCalls) := by
  unfold shouldElevatorStop; infer_instance

/-- The set `allDestinations` built at the head of
`getNextDestination`: the car's own destinations united with the
floors of the pending calls assigned to it. -/
def allDestinations (e : Elevator) (pendingCalls : List FloorCall) : Finset Int :=
  e.destinationFloors ∪
    ((pendingCalls.filter (fun c => decide (c.assignedElevator = some e.id))).map
      (fun c => c.floor)).toFinset

/-- Insertion step of an ascending, kernel-computable sort (used to
model `Array.from(set).sort((a, b) => a - b)`). -/
def insertAsc (x : Int) : List Int → List Int
  | [] => [x]
  | y :: ys => if x ≤ y then x :: y :: ys else y :: insertAsc x ys

/-- Ascending insertion sort on lists of floors. -/
def sortAsc (l : List Int) : List Int := l.foldr insertAsc []

/-- `Array.from(allDestinations).sort((a, b) => a - b)`: the distinct
destination floors in ascending order.  Implemented as a
permutation-invariant insertion sort lifted over the underlying
multiset, so that it evaluates by kernel reduction. -/
def sortedDestinations (e : Elevator) (pendingCalls : List FloorCall) : List Int :=
  Quotient.liftOn (allDestinations e pendingCalls).val sortAsc (by
    have hinsperm : ∀ (x : Int) (l : List Int), List.Perm (insertAsc x l) (x :: l) := by
      intro x l
      induction l with
      | nil => exact List.Perm.refl _
      | cons y ys ih =>
        unfold insertAsc
        by_cases h : x ≤ y
        · rw [if_pos h]
        · rw [if_neg h]
          exact (ih.cons y).trans (List.Perm.swap x y ys)
    have hperm : ∀ l : List Int, List.Perm (sortAsc l) l := by
      intro l
      induction l with
      | nil => exact List.Perm.refl _
      | cons x xs ih => exact (hinsperm x (sortAsc xs)).trans (ih.cons x)
    have hinssorted : ∀ (x : Int) (l : List Int),
        List.Sorted (· ≤ ·) l → List.Sorted (· ≤ ·) (insertAsc x l) := by
      intro x l
      induction l with
      | nil => intro _; simp [insertAsc]
      | cons y ys ih =>
        intro h
        rw [List.sorted_cons] at h
        unfold insertAsc
        by_cases hxy : x ≤ y
        · rw [if_pos hxy, List.sorted_cons]
          refine ⟨?_, by rw [List.sorted_cons]; exact h⟩
          intro b hb
          rcases List.mem_cons.mp hb with rfl | hb'
          · exact hxy
          · exact le_trans hxy (h.1 b hb')
        · rw [if_neg hxy, List.sorted_cons]
          refine ⟨?_, ih h.2⟩
          intro b hb
          rcases List.mem_cons.mp ((hinsperm x ys).mem_iff.mp hb) with rfl | hb'
          · exact le_of_lt (lt_of_not_le hxy)
          · exact h.1 b hb'
    have hsorted : ∀ l : List Int, List.Sorted (· ≤ ·) (sortAsc l) := by
      intro l
      induction l with
      | nil => simp [sortAsc]
      | cons x xs ih => exact hinssorted x (sortAsc xs) ih
    intro l₁ l₂ h
    exact List.eq_of_perm_of_sorted ((hperm l₁).trans (h.trans (hperm l₂).symm))
      (hsorted l₁) (hsorted l₂))

/-- The `destinations.reduce((closest, floor) => ...)` pattern of
`getNextDestination`: fold keeping the accumulator unless a strictly
closer floor appears. -/
def nearestReduce (cf : Int) (acc : Int) : List Int → Int
  | [] => acc
  | f :: fs => nearestReduce cf (if |f - cf| < |acc - cf| then f else acc) fs

/-- `ElevatorDispatcher.getNextDestination`. -/
def getNextDestination (e : Elevator) (pendingCalls : List FloorCall) : Option Int :=
  match sortedDestinations e pendingCalls with
  | [] => none
  | x :: xs =>
    match e.direction with
    | .idle => some (nearestReduce e.currentFloor x xs)
    | .up =>
      match (x :: xs).filter (fun f => decide (e.currentFloor < f)) with
      | u :: _ => some u
      | [] => some (nearestReduce e.currentFloor x xs)
    | .down =>
      match ((x :: xs).filter (fun f => decide (f < e.currentFloor))).getLast? with
      | some dl => some dl
      | none => some (nearestReduce e.currentFloor x xs)

/-! ## Factory (src/lib/elevatorFactory.ts) -/

/-- The three `throw` sites of `createFloorCall`, as distinct error
values. -/
inductive CallError where
  | invalidFloor : CallError
  | cannotGoDownFromGround : CallError
  | cannotGoUpFromTop : CallError
deriving DecidableEq

/-- `ElevatorFactory.createFloorCall`: validates the floor range and
the boundary-direction rule, then returns the call (with the fresh id
modelled by the incremented factory counter) together with the new
counter value. -/
def createFloorCall (floor : Int) (direction : CallDirection) (counter : Nat) (now : Nat) :
    Except CallError (FloorCall × Nat) :=
  if floor < 1 ∨ (FLOORS : Int) < floor then .error .invalidFloor
  else if floor = 1 ∧ direction = CallDirection.down then .error .cannotGoDownFromGround
  else if floor = (FLOORS : Int) ∧ direction = CallDirection.up then .error .cannotGoUpFromTop
  else .ok ({ id := counter + 1, floor := floor, direction := direction,
              timestamp := now, assignedElevator := none }, counter + 1)

/-- The do-while loop body of `generatePassengerDestinations`: draw
`Math.floor(Math.random() * FLOORS) + 1`, count the attempt, and
retry while the draw is the current floor or already chosen and fewer
than 10 attempts were made.  Returns the final draw, the attempt
count, and the next unread index of the draw stream.  `fuel` is kept
equal to `10 - attempts` by every caller, so the `fuel = 0` branch is
never reached from the actual entry point (`attempts = 0`,
`fuel = 10`). -/
def drawLoop (rng : Nat → Nat) (currentFloor : Int) (destinations : Finset Int) :
    Nat → Nat → Nat → Int × Nat × Nat
  | idx, attempts, 0 => (0, attempts, idx)
  | idx, attempts, fuel + 1 =>
    let destination : Int := (rng idx % FLOORS : Nat) + 1
    let attempts1 := attempts + 1
    if (destination = currentFloor ∨ destination ∈ destinations) ∧ attempts1 < 10 then
      drawLoop rng currentFloor destinations (idx + 1) attempts1 fuel
    else (destination, attempts1, idx + 1)

/-- The slot loop of `generatePassengerDestinations`: one `drawLoop`
run per requested destination, adding the draw only when the retry
budget was not exhausted (`attempts < 10`). -/
def genLoop (rng : Nat → Nat) (currentFloor : Int) :
    Nat → Nat → Finset Int → Finset Int
  | 0, _, destinations => destinations
  | n + 1, idx, destinations =>
    let r := drawLoop rng currentFloor destinations idx 0 10
    let destinations1 := if r.2.1 < 10 then insert r.1 destinations else destinations
    genLoop rng currentFloor n r.2.2 destinations1

/-- `ElevatorFactory.generatePassengerDestinations`: draw index 0
picks `numDestinations ∈ [1, maxDestinations]`, then the slots run in
order, each consuming further draws. -/
def generatePassengerDestinations (rng : Nat → Nat) (currentFloor : Int)
    (maxDestinations : Nat) : Finset Int :=
  let numDestinations := rng 0 % maxDestinations + 1
  genLoop rng currentFloor numDestinations 1 ∅

/-! ## Control loop (src/services/ElevatorControlService.ts) -/

/-- The log-buffer mechanics of `addLog`: evict down to
`MAX_LOG_ENTRIES - 1` entries (`logs.slice(-MAX + 1)`) when the cap
is reached, then push the new entry. -/
def pushLog (logs : List LogEntry) (entry : LogEntry) : List LogEntry :=
  if MAX_LOG_ENTRIES ≤ logs.length then
    (logs.drop (logs.length - (MAX_LOG_ENTRIES - 1))) ++ [entry]
  else logs ++ [entry]

/-- `addLog` on the system state (console output not modelled). -/
def addLog (s : SystemState) (t : LogType) (elevatorId : Option Nat) (floor : Option Int)
    (now : Nat) : SystemState :=
  { s with logs := pushLog s.logs { ltype := t, timestamp := now,
                                    elevatorId := elevatorId, floor := floor } }

/-- `addFloorCall`: dispatch the call; if a car is found, enqueue the
call with the assignment attached and log a `call` event; otherwise
log a `system` "queued" event and enqueue unassigned. -/
def addFloorCall (now : Nat) (s : SystemState) (call : FloorCall) : SystemState :=
  match findBestElevator s.elevators call with
  | none =>
    let s1 := addLog s LogType.system none none now
    { s1 with pendingCalls := s1.pendingCalls ++ [call] }
  | some best =>
    let assigned := { call with assignedElevator := some best.id }
    let s1 := { s with pendingCalls := s.pendingCalls ++ [assigned] }
    addLog s1 LogType.call (some best.id) (some call.floor) now

/-- `handlePassengerDropoff`: remove the floor, recompute the
passenger count, log, and go idle when no destinations remain. -/
def handlePassengerDropoff (s : SystemState) (i : Nat) (e : Elevator) (floor : Int)
    (now : Nat) : SystemState :=
  let e1 := { e with destinationFloors := e.destinationFloors.erase floor,
                     passengers := (e.destinationFloors.erase floor).card,
                     lastActivity := now }
  let s1 := { s with elevators := s.elevators.set i e1 }
  let s2 := addLog s1 LogType.dropoff (some e.id) (some floor) now
  if e1.destinationFloors = ∅ then
    let e2 := { e1 with direction := Direction.idle }
    let s3 := { s2 with elevators := s2.elevators.set i e2 }
    addLog s3 LogType.system (some e.id) (some floor) now
  else s2

/-- The synchronous part of `handlePassengerPickup`: enter `Loading`,
log, remove the completed call from the queue (by id) and bump the
processed-call counter.  The loading-completion timer is a separate
step (`finishLoading`). -/
def handlePassengerPickup (s : SystemState) (i : Nat) (e : Elevator) (floor : Int)
    (call : FloorCall) (now : Nat) : SystemState :=
  let e1 := { e with isLoading := true, lastActivity := now }
  let s1 := { s with elevators := s.elevators.set i e1 }
  let s2 := addLog s1 LogType.pickup (some e.id) (some floor) now
  { s2 with pendingCalls := s2.pendingCalls.filter (fun c => decide (c.id ≠ call.id)),
            totalCallsProcessed := s2.totalCallsProcessed + 1 }

/-- `handleElevatorAtFloor` (the stop-handling pass): nothing unless
`shouldElevatorStop`; then dropoff when the current floor is a
destination, then pickup of the first pending call assigned to this
car at this floor, if any. -/
def handleElevatorAtFloor (s : SystemState) (i : Nat) (now : Nat) : SystemState :=
  match s.elevators[i]? with
  | none => s
  | some e =>
    let currentFloor := e.currentFloor
    if shouldElevatorStop e currentFloor s.pendingCalls then
      let s1 := if currentFloor ∈ e.destinationFloors
                then handlePassengerDropoff s i e currentFloor now
                else s
      match s1.elevators[i]? with
      | none => s1
      | some e1 =>
        match s1.pendingCalls.find?
            (fun c => decide (c.floor = currentFloor ∧ c.assignedElevator = some e.id)) with
        | some call => handlePassengerPickup s1 i e1 currentFloor call now
        | none => s1
    else s

/-- The synchronous part of `moveElevator`: set the direction by
comparison with the target, enter `Moving`, and log the departure.
The movement-completion timer is a separate step (`finishMoving`). -/
def moveElevator (s : SystemState) (i : Nat) (e : Elevator) (targetFloor : Int)
    (now : Nat) : SystemState :=
  let dir := if e.currentFloor < targetFloor then Direction.up else Direction.down
  let e1 := { e with isMoving := true, direction := dir, lastActivity := now }
  let s1 := { s with elevators := s.elevators.set i e1 }
  addLog s1 LogType.movement (some e.id) none now

/-- `moveElevatorToNextDestination`.  The JS test
`!nextDestination || nextDestination === elevator.currentFloor`
treats floor `0` as falsy, which is mirrored here. -/
def moveElevatorToNextDestination (s : SystemState) (i : Nat) (now : Nat) : SystemState :=
  match s.elevators[i]? with
  | none => s
  | some e =>
    match getNextDestination e s.pendingCalls with
    | none =>
      if e.direction ≠ Direction.idle then
        let e1 := { e with direction := Direction.idle }
        addLog { s with elevators := s.elevators.set i e1 } LogType.system
          (some e.id) (some e.currentFloor) now
      else s
    | some target =>
      if target = 0 ∨ target = e.currentFloor then
        if e.direction ≠ Direction.idle then
          let e1 := { e with direction := Direction.idle }
          addLog { s with elevators := s.elevators.set i e1 } LogType.system
            (some e.id) (some e.currentFloor) now
        else s
      else moveElevator s i e target now

/-- One iteration of the `forEach` of `processElevatorLogic`: skip
busy cars, otherwise stop-handling then movement. -/
def processCar (now : Nat) (s : SystemState) (i : Nat) : SystemState :=
  match s.elevators[i]? with
  | none => s
  | some e =>
    if e.isMoving || e.isLoading then s
    else moveElevatorToNextDestination (handleElevatorAtFloor s i now) i now

/-- One iteration of `reassignUnassignedCalls`: rerun dispatch for a
previously unassigned call and, when a car is found, attach the
assignment in place (located by call id) and log. -/
def reassignStep (now : Nat) (s : SystemState) (call : FloorCall) : SystemState :=
  match findBestElevator s.elevators call with
  | none => s
  | some best =>
    match s.pendingCalls.findIdx? (fun c => decide (c.id = call.id)) with
    | none => s
    | some idx =>
      let s1 := { s with pendingCalls :=
        s.pendingCalls.set idx { call with assignedElevator := some best.id } }
      addLog s1 LogType.system (some best.id) (some call.floor) now

/-- `reassignUnassignedCalls`: the unassigned calls are snapshotted
once and each is retried in order. -/
def reassignUnassignedCalls (now : Nat) (s : SystemState) : SystemState :=
  (s.pendingCalls.filter (fun c => decide (c.assignedElevator = none))).foldl
    (reassignStep now) s

/-- `processElevatorLogic` (one tick): advance every car in array
order, then the reassignment pass. -/
def processElevatorLogic (now : Nat) (s : SystemState) : SystemState :=
  reassignUnassignedCalls now
    ((List.range s.elevators.length).foldl (processCar now) s)

/-! ## Spec-side predicates used in claim statements -/

/-- Spec wording for the `+75` condition of the score: the car can
reach the call floor without reversing direction — idle, or moving in
`call.direction` and positioned on the approach side. -/
def CanReachWithoutReversing (e : Elevator) (call : FloorCall) : Prop :=
  e.direction = Direction.idle ∨
    (e.direction = call.direction.toDir ∧
      ((call.direction = CallDirection.up ∧ e.currentFloor ≤ call.floor) ∨
       (call.direction = CallDirection.down ∧ call.floor ≤ e.currentFloor)))

instance (e : Elevator) (call : FloorCall) : Decidable (CanReachWithoutReversing e call) := by
  unfold CanReachWithoutReversing; infer_instance

/-- Spec wording: `r` is the element of `D` nearest `cf`, ties broken
toward the lower floor. -/
def NearestLowTie (D : Finset Int) (cf r : Int) : Prop :=
  r ∈ D ∧ (∀ d ∈ D, |r - cf| ≤ |d - cf|) ∧ (∀ d ∈ D, |d - cf| = |r - cf| → r ≤ d)

/-! ## Claim C2: the dispatch score formula -/

/-- C2: for every car and call, the dispatch score equals
`max(0, 100 - 10·|car.currentFloor - call.floor|)`, plus `50` if the
car's direction equals the call's direction, plus `25` if the car is
idle, plus `75` if the car can reach the call floor without
reversing, minus `5·|car.destinations|`. -/
theorem claim_C2_score_formula (e : Elevator) (call : FloorCall) :
    calculateElevatorScore e call =
      max 0 (100 - 10 * |e.currentFloor - call.floor|)
      + (if e.direction = call.direction.toDir then 50 else 0)
      + (if e.direction = Direction.idle then 25 else 0)
      + (if CanReachWithoutReversing e call then 75 else 0)
      - 5 * (e.destinationFloors.card : Int) := by
  have hreach : canPickupWithoutDirectionChange e call = true ↔ CanReachWithoutReversing e call := by
    unfold canPickupWithoutDirectionChange CanReachWithoutReversing
    cases e.direction <;> cases call.direction <;> simp [CallDirection.toDir]
  unfold calculateElevatorScore
  rcases h : canPickupWithoutDirectionChange e call with _ | _
  · have hn : ¬ CanReachWithoutReversing e call := by
      rw [← hreach, h]; simp
    simp only [h, if_neg hn, if_false, Bool.false_eq_true]
    cases e.direction <;> cases call.direction <;> simp [CallDirection.toDir] <;> ring_nf
  · have hp : CanReachWithoutReversing e call := hreach.mp h
    simp only [h, if_pos hp, if_true]
    cases e.direction <;> cases call.direction <;> simp [CallDirection.toDir] <;> ring_nf

/-! ## Claim C1: `getNextDestination` (up/down collective-control rule) -/

lemma sortedDestinations_sorted (e : Elevator) (pendingCalls : List FloorCall) :
    List.Sorted (· ≤ ·) (sortedDestinations e pendingCalls) := by
  have hinsperm : ∀ (x : Int) (l : List Int), List.Perm (insertAsc x l) (x :: l) := by
    intro x l
    induction l with
    | nil => exact List.Perm.refl _
    | cons y ys ih =>
      unfold insertAsc
      by_cases h : x ≤ y
      · rw [if_pos h]
      · rw [if_neg h]
        exact (ih.cons y).trans (List.Perm.swap x y ys)
  have hinssorted : ∀ (x : Int) (l : List Int),
      List.Sorted (· ≤ ·) l → List.Sorted (· ≤ ·) (insertAsc x l) := by
    intro x l
    induction l with
    | nil => intro _; simp [insertAsc]
    | cons y ys ih =>
      intro h
      rw [List.sorted_cons] at h
      unfold insertAsc
      by_cases hxy : x ≤ y
      · rw [if_pos hxy, List.sorted_cons]
        refine ⟨?_, by rw [List.sorted_cons]; exact h⟩
        intro b hb
        rcases List.mem_cons.mp hb with rfl | hb'
        · exact hxy
        · exact le_trans hxy (h.1 b hb')
      · rw [if_neg hxy, List.sorted_cons]
        refine ⟨?_, ih h.2⟩
        intro b hb
        rcases List.mem_cons.mp ((hinsperm x ys).mem_iff.mp hb) with rfl | hb'
        · exact le_of_lt (lt_of_not_le hxy)
        · exact h.1 b hb'
  unfold sortedDestinations
  induction (allDestinations e pendingCalls).val using Quotient.inductionOn with
  | h l =>
    show List.Sorted (· ≤ ·) (sortAsc l)
    induction l with
    | nil => simp [sortAsc]
    | cons x xs ih => exact hinssorted x (sortAsc xs) ih

lemma sortAsc_perm (l : List Int) : List.Perm (sortAsc l) l := by
  have hinsperm : ∀ (x : Int) (l : List Int), List.Perm (insertAsc x l) (x :: l) := by
    intro x l
    induction l with
    | nil => exact List.Perm.refl _
    | cons y ys ih =>
      unfold insertAsc
      by_cases h : x ≤ y
      · rw [if_pos h]
      · rw [if_neg h]
        exact (ih.cons y).trans (List.Perm.swap x y ys)
  induction l with
  | nil => exact List.Perm.refl _
  | cons x xs ih => exact (hinsperm x (sortAsc xs)).trans (ih.cons x)

lemma mem_sortedDestinations (e : Elevator) (pendingCalls : List FloorCall) (a : Int) :
    a ∈ sortedDestinations e pendingCalls ↔ a ∈ allDestinations e pendingCalls := by
  rw [Finset.mem_def]
  unfold sortedDestinations
  induction (allDestinations e pendingCalls).val using Quotient.inductionOn with
  | h l =>
    show a ∈ sortAsc l ↔ _
    rw [(sortAsc_perm l).mem_iff]
    exact Iff.rfl

lemma sortedDestinations_eq_nil (e : Elevator) (pendingCalls : List FloorCall) :
    sortedDestinations e pendingCalls = [] ↔ allDestinations e pendingCalls = ∅ := by
  constructor
  · intro h
    ext a
    simp only [Finset.not_mem_empty, iff_false]
    intro ha
    have hmem := (mem_sortedDestinations e pendingCalls a).mpr ha
    rw [h] at hmem
    exact absurd hmem (List.not_mem_nil a)
  · intro h
    unfold sortedDestinations
    rw [h]
    rfl

lemma nearestReduce_spec (cf : Int) (l : List Int) :
    ∀ acc : Int, List.Sorted (· ≤ ·) l → (∀ x ∈ l, acc ≤ x) →
      (nearestReduce cf acc l = acc ∨ nearestReduce cf acc l ∈ l) ∧
      |nearestReduce cf acc l - cf| ≤ |acc - cf| ∧
      (∀ d ∈ l, |nearestReduce cf acc l - cf| ≤ |d - cf|) ∧
      (|acc - cf| ≤ |nearestReduce cf acc l - cf| → nearestReduce cf acc l = acc) ∧
      (∀ d ∈ l, |d - cf| ≤ |nearestReduce cf acc l - cf| → nearestReduce cf acc l ≤ d) := by
  induction l with
  | nil => intro acc _ _; simp [nearestReduce]
  | cons f fs ih =>
    intro acc hsort hle
    rw [List.sorted_cons] at hsort
    obtain ⟨hf, hsort'⟩ := hsort
    by_cases hcl : |f - cf| < |acc - cf|
    · simp only [nearestReduce, if_pos hcl]
      obtain ⟨hmem, habs, hall, hacc, htie⟩ := ih f hsort' hf
      refine ⟨?_, ?_, ?_, ?_, ?_⟩
      · rcases hmem with h1 | h1
        · right; rw [h1]; exact List.mem_cons_self f fs
        · right; exact List.mem_cons_of_mem f h1
      · exact le_trans habs (le_of_lt hcl)
      · intro d hd
        rcases List.mem_cons.mp hd with rfl | hd'
        · exact habs
        · exact hall d hd'
      · intro hge
        exact absurd (lt_of_lt_of_le hcl (le_trans hge habs)) (lt_irrefl _)
      · intro d hd hdle
        rcases List.mem_cons.mp hd with rfl | hd'
        · exact le_of_eq (hacc hdle)
        · exact htie d hd' hdle
    · push_neg at hcl
      have hle' : ∀ x ∈ fs, acc ≤ x := fun x hx => hle x (List.mem_cons_of_mem f hx)
      simp only [nearestReduce, if_neg (not_lt.mpr hcl)]
      obtain ⟨hmem, habs, hall, hacc, htie⟩ := ih acc hsort' hle'
      refine ⟨?_, habs, ?_, hacc, ?_⟩
      · rcases hmem with h1 | h1
        · exact Or.inl h1
        · exact Or.inr (List.mem_cons_of_mem f h1)
      · intro d hd
        rcases List.mem_cons.mp hd with rfl | hd'
        · exact le_trans habs hcl
        · exact hall d hd'
      · intro d hd hdle
        rcases List.mem_cons.mp hd with rfl | hd'
        · have hreq : nearestReduce cf acc fs = acc := hacc (le_trans hcl hdle)
          rw [hreq]
          exact hle d (List.mem_cons_self d fs)
        · exact htie d hd' hdle

lemma nearest_of_sortedDest (e : Elevator) (pendingCalls : List FloorCall) (cf x : Int)
    (xs : List Int) (h : sortedDestinations e pendingCalls = x :: xs) :
    NearestLowTie (allDestinations e pendingCalls) cf (nearestReduce cf x xs) := by
  have hsorted : List.Sorted (· ≤ ·) (x :: xs) := by
    rw [← h]; exact sortedDestinations_sorted e pendingCalls
  have hmemiff : ∀ y, y ∈ x :: xs ↔ y ∈ allDestinations e pendingCalls := by
    intro y; rw [← h]; exact mem_sortedDestinations e pendingCalls y
  rw [List.sorted_cons] at hsorted
  obtain ⟨hx, hxs⟩ := hsorted
  obtain ⟨hmem, habs, hall, hacc, htie⟩ := nearestReduce_spec cf xs x hxs hx
  refine ⟨?_, ?_, ?_⟩
  · apply (hmemiff _).mp
    rcases hmem with h1 | h1
    · rw [h1]; exact List.mem_cons_self x xs
    · exact List.mem_cons_of_mem x h1
  · intro d hd
    rcases List.mem_cons.mp ((hmemiff d).mpr hd) with rfl | hd'
    · exact habs
    · exact hall d hd'
  · intro d hd heq
    rcases List.mem_cons.mp ((hmemiff d).mpr hd) with rfl | hd'
    · exact le_of_eq (hacc (le_of_eq heq))
    · exact htie d hd' (le_of_eq heq)

lemma sorted_filter_head (l : List Int) (p : Int → Bool) (hs : List.Sorted (· ≤ ·) l)
    (u : Int) (us : List Int) (h : l.filter p = u :: us) :
    u ∈ l ∧ p u = true ∧ ∀ d ∈ l, p d = true → u ≤ d := by
  have hmemf : u ∈ l.filter p := by rw [h]; exact List.mem_cons_self u us
  have hu := List.mem_filter.mp hmemf
  have hsf : List.Sorted (· ≤ ·) (l.filter p) := List.Pairwise.filter p hs
  rw [h, List.sorted_cons] at hsf
  refine ⟨hu.1, hu.2, ?_⟩
  intro d hd hpd
  have hdf : d ∈ l.filter p := List.mem_filter.mpr ⟨hd, hpd⟩
  rw [h] at hdf
  rcases List.mem_cons.mp hdf with rfl | hd'
  · exact le_rfl
  · exact hsf.1 d hd'

lemma sorted_getLast_max (l : List Int) (hs : List.Sorted (· ≤ ·) l) :
    ∀ m : Int, l.getLast? = some m → m ∈ l ∧ ∀ x ∈ l, x ≤ m := by
  induction l with
  | nil => intro m h; exact absurd h (by simp)
  | cons a t ih =>
    intro m h
    cases t with
    | nil =>
      simp only [List.getLast?_singleton, Option.some.injEq] at h
      subst h
      refine ⟨List.mem_cons_self _ _, ?_⟩
      intro x hx
      rcases List.mem_cons.mp hx with rfl | hx'
      · exact le_rfl
      · exact absurd hx' (List.not_mem_nil x)
    | cons b t' =>
      rw [List.getLast?_cons_cons] at h
      rw [List.sorted_cons] at hs
      obtain ⟨hm, hall⟩ := ih hs.2 m h
      refine ⟨List.mem_cons_of_mem a hm, ?_⟩
      intro x hx
      rcases List.mem_cons.mp hx with rfl | hx'
      · exact hs.1 m hm
      · exact hall x hx'

lemma sorted_filter_getLast (l : List Int) (p : Int → Bool) (hs : List.Sorted (· ≤ ·) l)
    (m : Int) (h : (l.filter p).getLast? = some m) :
    m ∈ l ∧ p m = true ∧ ∀ d ∈ l, p d = true → d ≤ m := by
  have hsf : List.Sorted (· ≤ ·) (l.filter p) := List.Pairwise.filter p hs
  obtain ⟨hm, hmax⟩ := sorted_getLast_max (l.filter p) hsf m h
  have hm' := List.mem_filter.mp hm
  refine ⟨hm'.1, hm'.2, ?_⟩
  intro d hd hpd
  exact hmax d (List.mem_filter.mpr ⟨hd, hpd⟩)

/-- C1: over `D = car.destinations ∪ {floors of calls assigned to the
car}`, `getNextDestination` returns none iff `D` is empty; when idle
it returns the element of `D` nearest the current floor with ties
broken toward the lower floor; when moving up, the smallest element
of `D` strictly above the current floor if one exists, and otherwise
(fallthrough) the nearest element with the same tie-break; when
moving down, the largest element strictly below the current floor if
one exists, and otherwise the nearest element with the same
tie-break. -/
theorem claim_C1_nextDestination (e : Elevator) (pendingCalls : List FloorCall) :
    (getNextDestination e pendingCalls = none ↔ allDestinations e pendingCalls = ∅) ∧
    (∀ r, getNextDestination e pendingCalls = some r →
      (e.direction = Direction.idle →
        NearestLowTie (allDestinations e pendingCalls) e.currentFloor r) ∧
      (e.direction = Direction.up →
        ((∃ d ∈ allDestinations e pendingCalls, e.currentFloor < d) →
          r ∈ allDestinations e pendingCalls ∧ e.currentFloor < r ∧
            ∀ d ∈ allDestinations e pendingCalls, e.currentFloor < d → r ≤ d) ∧
        ((∀ d ∈ allDestinations e pendingCalls, ¬ e.currentFloor < d) →
          NearestLowTie (allDestinations e pendingCalls) e.currentFloor r)) ∧
      (e.direction = Direction.down →
        ((∃ d ∈ allDestinations e pendingCalls, d < e.currentFloor) →
          r ∈ allDestinations e pendingCalls ∧ r < e.currentFloor ∧
            ∀ d ∈ allDestinations e pendingCalls, d < e.currentFloor → d ≤ r) ∧
        ((∀ d ∈ allDestinations e pendingCalls, ¬ d < e.currentFloor) →
          NearestLowTie (allDestinations e pendingCalls) e.currentFloor r))) := by
  rcases hsort : sortedDestinations e pendingCalls with _ | ⟨x, xs⟩
  · have hempty : allDestinations e pendingCalls = ∅ :=
      (sortedDestinations_eq_nil e pendingCalls).mp hsort
    have hnone : getNextDestination e pendingCalls = none := by
      unfold getNextDestination
      rw [hsort]
    refine ⟨by rw [hnone]; simp [hempty], ?_⟩
    intro r hr
    rw [hnone] at hr
    exact absurd hr (by simp)
  · have hsorted : List.Sorted (· ≤ ·) (x :: xs) := by
      rw [← hsort]; exact sortedDestinations_sorted e pendingCalls
    have hmemD : ∀ y, y ∈ x :: xs ↔ y ∈ allDestinations e pendingCalls := by
      intro y; rw [← hsort]; exact mem_sortedDestinations e pendingCalls y
    have hnear : NearestLowTie (allDestinations e pendingCalls) e.currentFloor
        (nearestReduce e.currentFloor x xs) :=
      nearest_of_sortedDest e pendingCalls e.currentFloor x xs hsort
    have hne : allDestinations e pendingCalls ≠ ∅ := by
      intro hcontra
      have h2 := (sortedDestinations_eq_nil e pendingCalls).mpr hcontra
      rw [h2] at hsort
      exact absurd hsort (by simp)
    have hnn : getNextDestination e pendingCalls ≠ none := by
      unfold getNextDestination
      rw [hsort]
      cases e.direction with
      | idle => simp
      | up =>
        rcases hf : (x :: xs).filter (fun f => decide (e.currentFloor < f)) with _ | ⟨u, us⟩ <;>
          · dsimp only
            rw [hf]
            simp
      | down =>
        rcases hf : ((x :: xs).filter (fun f => decide (f < e.currentFloor))).getLast?
            with _ | dl <;>
          · dsimp only
            rw [hf]
            simp
    refine ⟨⟨fun hnone => absurd hnone hnn, fun hD => absurd hD hne⟩, ?_⟩
    intro r hr
    unfold getNextDestination at hr
    rw [hsort] at hr
    refine ⟨?_, ?_, ?_⟩
    · intro hdir
      rw [hdir] at hr
      dsimp only at hr
      simp only [Option.some.injEq] at hr
      rw [← hr]
      exact hnear
    · intro hdir
      rw [hdir] at hr
      dsimp only at hr
      rcases hf : (x :: xs).filter (fun f => decide (e.currentFloor < f)) with _ | ⟨u, us⟩
      · rw [hf] at hr
        simp only [Option.some.injEq] at hr
        constructor
        · intro hex
          obtain ⟨d, hd, hlt⟩ := hex
          have hdl : d ∈ (x :: xs).filter (fun f => decide (e.currentFloor < f)) :=
            List.mem_filter.mpr ⟨(hmemD d).mpr hd, by simpa using hlt⟩
          rw [hf] at hdl
          exact absurd hdl (List.not_mem_nil d)
        · intro _
          rw [← hr]
          exact hnear
      · rw [hf] at hr
        simp only [Option.some.injEq] at hr
        obtain ⟨humem, hup, humin⟩ := sorted_filter_head _ _ hsorted u us hf
        constructor
        · intro _
          subst hr
          refine ⟨(hmemD u).mp humem, by simpa using hup, ?_⟩
          intro d hd hlt
          exact humin d ((hmemD d).mpr hd) (by simpa using hlt)
        · intro hnall
          exact absurd (by simpa using hup) (hnall u ((hmemD u).mp humem))
    · intro hdir
      rw [hdir] at hr
      dsimp only at hr
      rcases hf : ((x :: xs).filter (fun f => decide (f < e.currentFloor))).getLast? with _ | dl
      · rw [hf] at hr
        simp only [Option.some.injEq] at hr
        constructor
        · intro hex
          obtain ⟨d, hd, hlt⟩ := hex
          have hdl : d ∈ (x :: xs).filter (fun f => decide (f < e.currentFloor)) :=
            List.mem_filter.mpr ⟨(hmemD d).mpr hd, by simpa using hlt⟩
          rw [List.getLast?_eq_none_iff] at hf
          rw [hf] at hdl
          exact absurd hdl (List.not_mem_nil d)
        · intro _
          rw [← hr]
          exact hnear
      · rw [hf] at hr
        simp only [Option.some.injEq] at hr
        obtain ⟨hdmem, hdp, hdmax⟩ := sorted_filter_getLast _ _ hsorted dl hf
        constructor
        · intro _
          subst hr
          refine ⟨(hmemD dl).mp hdmem, by simpa using hdp, ?_⟩
          intro d hd hlt
          exact hdmax d ((hmemD d).mpr hd) (by simpa using hlt)
        · intro hnall
          exact absurd (by simpa using hdp) (hnall dl ((hmemD dl).mp hdmem))

/-- Witness for C1 at the spec's own example: a car moving up from
floor 3 with destinations `{2, 5}` continues up to `5`. -/
theorem claim_C1_witness :
    (5 : Int) ∈ allDestinations ⟨1, 3, Direction.up, false, false, {2, 5}, 2, 0⟩ [] ∧
      (3 : Int) < 5 ∧
      ∀ d ∈ allDestinations ⟨1, 3, Direction.up, false, false, {2, 5}, 2, 0⟩ [],
        (3 : Int) < d → (5 : Int) ≤ d :=
  (((claim_C1_nextDestination ⟨1, 3, Direction.up, false, false, {2, 5}, 2, 0⟩ []).2
    5 (by decide)).2.1 rfl).1 (by decide)

/-! ## Claim C3: `findBestElevator` -/

lemma insertDesc_ne_nil (key : α → Int) (x : α) (l : List α) : insertDesc key x l ≠ [] := by
  cases l with
  | nil => simp [insertDesc]
  | cons y ys =>
    unfold insertDesc
    by_cases h : key y ≤ key x
    · rw [if_pos h]; simp
    · rw [if_neg h]; simp

lemma sortByScoreDesc_ne_nil (key : α → Int) (c : α) (cs : List α) :
    sortByScoreDesc key (c :: cs) ≠ [] := by
  simp only [sortByScoreDesc]
  exact insertDesc_ne_nil key c _

lemma sortByScoreDesc_head (key : α → Int) (l : List α) :
    ∀ (x : α) (t : List α), sortByScoreDesc key l = x :: t →
      (∀ y ∈ l, key y ≤ key x) ∧
      ∃ l₁ l₂, l = l₁ ++ x :: l₂ ∧ ∀ y ∈ l₁, key y < key x := by
  induction l with
  | nil => intro x t h; exact absurd h (by simp [sortByScoreDesc])
  | cons a l' ih =>
    intro x t h
    simp only [sortByScoreDesc] at h
    rcases hs : sortByScoreDesc key l' with _ | ⟨b, t'⟩
    · have hl' : l' = [] := by
        cases l' with
        | nil => rfl
        | cons c cs => exact absurd hs (sortByScoreDesc_ne_nil key c cs)
      subst hl'
      rw [hs] at h
      simp only [insertDesc, List.cons.injEq] at h
      obtain ⟨rfl, rfl⟩ := h
      refine ⟨?_, [], [], rfl, by simp⟩
      intro y hy
      rcases List.mem_cons.mp hy with rfl | hy'
      · exact le_rfl
      · exact absurd hy' (List.not_mem_nil y)
    · rw [hs] at h
      obtain ⟨hbound, m₁, m₂, hdec, hlt⟩ := ih b t' hs
      unfold insertDesc at h
      by_cases hba : key b ≤ key a
      · rw [if_pos hba] at h
        obtain ⟨rfl, rfl⟩ := List.cons.inj h
        refine ⟨?_, [], l', rfl, by simp⟩
        intro y hy
        rcases List.mem_cons.mp hy with rfl | hy'
        · exact le_rfl
        · exact le_trans (hbound y hy') hba
      · rw [if_neg hba] at h
        obtain ⟨rfl, rfl⟩ := List.cons.inj h
        have hab : key a < key b := lt_of_not_le hba
        refine ⟨?_, a :: m₁, m₂, by rw [hdec]; rfl, ?_⟩
        · intro y hy
          rcases List.mem_cons.mp hy with rfl | hy'
          · exact le_of_lt hab
          · exact hbound y hy'
        · intro y hy
          rcases List.mem_cons.mp hy with rfl | hy'
          · exact hab
          · exact hlt y hy'

lemma map_eq_append_cons {α β : Type} {f : α → β} (l : List α) :
    ∀ (s₁ : List β) (x : β) (s₂ : List β), l.map f = s₁ ++ x :: s₂ →
      ∃ m₁ y m₂, l = m₁ ++ y :: m₂ ∧ f y = x ∧ m₁.map f = s₁ ∧ m₂.map f = s₂ := by
  induction l with
  | nil =>
    intro s₁ x s₂ h
    exact absurd h.symm (List.append_ne_nil_of_right_ne_nil s₁ (by simp))
  | cons a l' ih =>
    intro s₁ x s₂ h
    cases s₁ with
    | nil =>
      simp only [List.map_cons, List.nil_append] at h
      obtain ⟨hfa, hmap⟩ := List.cons.inj h
      exact ⟨[], a, l', rfl, hfa, rfl, hmap⟩
    | cons s s₁' =>
      simp only [List.map_cons, List.cons_append] at h
      obtain ⟨hfa, hmap⟩ := List.cons.inj h
      obtain ⟨m₁, y, m₂, hl, hfy, hm₁, hm₂⟩ := ih s₁' x s₂ hmap
      exact ⟨a :: m₁, y, m₂, by rw [hl]; rfl, hfy, by simp [hm₁, hfa], hm₂⟩

/-- C3: `findBestElevator` returns none iff no car is available
(neither moving nor loading); otherwise it returns a car of maximal
score among the available cars, and the first such car in fleet order
(every available car strictly earlier has strictly smaller score).
Determinism under repeated invocation is definitional: the embedding
is a pure function of its arguments. -/
theorem claim_C3_findBestElevator (elevators : List Elevator) (call : FloorCall) :
    (findBestElevator elevators call = none ↔ availableElevators elevators = []) ∧
    (∀ e, findBestElevator elevators call = some e →
      ∃ l₁ l₂, availableElevators elevators = l₁ ++ e :: l₂ ∧
        (∀ e' ∈ availableElevators elevators,
          calculateElevatorScore e' call ≤ calculateElevatorScore e call) ∧
        (∀ e' ∈ l₁, calculateElevatorScore e' call < calculateElevatorScore e call)) := by
  rcases hav : availableElevators elevators with _ | ⟨a, as⟩
  · constructor
    · simp [findBestElevator, hav]
    · intro e he
      rw [findBestElevator, hav] at he
      simp at he
  · have heq : findBestElevator elevators call =
        match sortByScoreDesc (fun p => p.2)
            ((a :: as).map (fun e => (e, calculateElevatorScore e call))) with
        | [] => none
        | p :: _ => some p.1 := by
      unfold findBestElevator
      rw [hav]
      rfl
    rcases hsorted : sortByScoreDesc (fun p => p.2)
        ((a :: as).map (fun e => (e, calculateElevatorScore e call))) with _ | ⟨p, ps⟩
    · exact absurd hsorted (by
        rw [List.map_cons]
        exact sortByScoreDesc_ne_nil _ _ _)
    · rw [hsorted] at heq
      constructor
      · rw [heq]
        simp
      · intro e he
        rw [heq] at he
        simp only [Option.some.injEq] at he
        obtain ⟨hbound, s₁, s₂, hdec, hlt⟩ := sortByScoreDesc_head _ _ p ps hsorted
        obtain ⟨m₁, y, m₂, hl, hfy, hm₁, hm₂⟩ := map_eq_append_cons (a :: as) s₁ p s₂ hdec
        obtain ⟨hy1, hy2⟩ := Prod.mk.injEq .. ▸ hfy
        refine ⟨m₁, m₂, ?_, ?_, ?_⟩
        · rw [hl, hy1, he]
        · intro e' he'
          have hmem : (e', calculateElevatorScore e' call) ∈
              (a :: as).map (fun e => (e, calculateElevatorScore e call)) :=
            List.mem_map_of_mem _ he'
          have hb := hbound _ hmem
          rw [← he, ← hy1, hy2]
          exact hb
        · intro e' he'
          have hmem : (e', calculateElevatorScore e' call) ∈ s₁ := by
            rw [← hm₁]
            exact List.mem_map_of_mem _ he'
          have hb := hlt _ hmem
          rw [← he, ← hy1, hy2]
          exact hb

/-- Witness for C3 at the spec's distance-preference example: two
idle cars at floors 4 and 8, a call at floor 5 going up; the car at
floor 4 is chosen, first in fleet order among maximal scores. -/
theorem claim_C3_witness :
    ∃ l₁ l₂,
      availableElevators [⟨1, 4, Direction.idle, false, false, ∅, 0, 0⟩,
                          ⟨2, 8, Direction.idle, false, false, ∅, 0, 0⟩] =
        l₁ ++ (⟨1, 4, Direction.idle, false, false, ∅, 0, 0⟩ : Elevator) :: l₂ ∧
      (∀ e' ∈ availableElevators [⟨1, 4, Direction.idle, false, false, ∅, 0, 0⟩,
                                  ⟨2, 8, Direction.idle, false, false, ∅, 0, 0⟩],
        calculateElevatorScore e' ⟨1, 5, CallDirection.up, 0, none⟩ ≤
          calculateElevatorScore ⟨1, 4, Direction.idle, false, false, ∅, 0, 0⟩
            ⟨1, 5, CallDirection.up, 0, none⟩) ∧
      (∀ e' ∈ l₁,
        calculateElevatorScore e' ⟨1, 5, CallDirection.up, 0, none⟩ <
          calculateElevatorScore ⟨1, 4, Direction.idle, false, false, ∅, 0, 0⟩
            ⟨1, 5, CallDirection.up, 0, none⟩) :=
  (claim_C3_findBestElevator
    [⟨1, 4, Direction.idle, false, false, ∅, 0, 0⟩,
     ⟨2, 8, Direction.idle, false, false, ∅, 0, 0⟩]
    ⟨1, 5, CallDirection.up, 0, none⟩).2
    ⟨1, 4, Direction.idle, false, false, ∅, 0, 0⟩ (by decide)

/-! ## Claim C4: `generatePassengerDestinations` -/

lemma drawLoop_valid (rng : Nat → Nat) (cf : Int) (dests : Finset Int) :
    ∀ (fuel attempts idx : Nat), attempts + fuel = 10 →
      ((drawLoop rng cf dests idx attempts fuel).2.1 < 10 →
        1 ≤ (drawLoop rng cf dests idx attempts fuel).1 ∧
        (drawLoop rng cf dests idx attempts fuel).1 ≤ (FLOORS : Int) ∧
        (drawLoop rng cf dests idx attempts fuel).1 ≠ cf ∧
        (drawLoop rng cf dests idx attempts fuel).1 ∉ dests) := by
  intro fuel
  induction fuel with
  | zero =>
    intro attempts idx hinv hlt
    simp only [drawLoop] at hlt
    omega
  | succ fuel ih =>
    intro attempts idx hinv
    simp only [drawLoop]
    split
    · intro hlt
      exact ih (attempts + 1) (idx + 1) (by omega) hlt
    · next hcond =>
      intro hlt
      have hmod : rng idx % FLOORS < FLOORS := Nat.mod_lt _ (by norm_num [FLOORS])
      have hd : ¬(((rng idx % FLOORS : Nat) : Int) + 1 = cf ∨
          ((rng idx % FLOORS : Nat) : Int) + 1 ∈ dests) := by
        intro hcon
        exact hcond ⟨hcon, hlt⟩
      push_neg at hd
      refine ⟨?_, ?_, hd.1, hd.2⟩
      · have : (0 : Int) ≤ ((rng idx % FLOORS : Nat) : Int) := Int.natCast_nonneg _
        omega
      · have : ((rng idx % FLOORS : Nat) : Int) < (FLOORS : Int) := by exact_mod_cast hmod
        omega

lemma genLoop_spec (rng : Nat → Nat) (cf : Int) :
    ∀ (n idx : Nat) (dests : Finset Int),
      (∀ d ∈ dests, 1 ≤ d ∧ d ≤ (FLOORS : Int) ∧ d ≠ cf) →
      (∀ d ∈ genLoop rng cf n idx dests, 1 ≤ d ∧ d ≤ (FLOORS : Int) ∧ d ≠ cf) ∧
      (genLoop rng cf n idx dests).card ≤ dests.card + n := by
  intro n
  induction n with
  | zero => intro idx dests h; exact ⟨h, by simp [genLoop]⟩
  | succ n ih =>
    intro idx dests h
    simp only [genLoop]
    by_cases hatt : (drawLoop rng cf dests idx 0 10).2.1 < 10
    · rw [if_pos hatt]
      obtain ⟨h1, h2, h3, h4⟩ := drawLoop_valid rng cf dests 10 0 idx (by omega) hatt
      have hins : ∀ d ∈ insert (drawLoop rng cf dests idx 0 10).1 dests,
          1 ≤ d ∧ d ≤ (FLOORS : Int) ∧ d ≠ cf := by
        intro d hd
        rcases Finset.mem_insert.mp hd with rfl | hd'
        · exact ⟨h1, h2, h3⟩
        · exact h d hd'
      obtain ⟨ha, hb⟩ := ih _ _ hins
      refine ⟨ha, le_trans hb ?_⟩
      have hcard := Finset.card_insert_le (drawLoop rng cf dests idx 0 10).1 dests
      omega
    · rw [if_neg hatt]
      obtain ⟨ha, hb⟩ := ih _ _ h
      exact ⟨ha, le_trans hb (by omega)⟩

/-- C4 counterexample: with `currentFloor = 1 ∈ [1, F]`,
`maxCount = 1 ≥ 1`, `F = 10 ≥ 2`, and the draw stream that always
returns `0` (so every draw is floor `1 = currentFloor`), every slot
exhausts its 10-attempt retry budget and the result is the empty set
— refuting the claim that the result is non-empty whenever
`F ≥ 2`. -/
theorem claim_C4_counterexample :
    (1 : Int) ∈ Finset.Icc (1 : Int) (FLOORS : Int) ∧ 1 ≤ (1 : Nat) ∧ 2 ≤ FLOORS ∧
      generatePassengerDestinations (fun _ => 0) 1 1 = ∅ := by
  refine ⟨by decide, by decide, by decide, ?_⟩
  decide

/-- C4 (amended): for every draw stream, `currentFloor`, and
`maxCount ≥ 1`, the result is a set of (necessarily distinct) floors
in `[1, F]`, none equal to `currentFloor`, of size at most
`maxCount`; it can be empty when the per-slot retry budget is
exhausted, even with `F ≥ 2`. -/
theorem claim_C4_amended (rng : Nat → Nat) (cf : Int) (maxCount : Nat) (h : 1 ≤ maxCount) :
    (∀ d ∈ generatePassengerDestinations rng cf maxCount,
      1 ≤ d ∧ d ≤ (FLOORS : Int) ∧ d ≠ cf) ∧
    (generatePassengerDestinations rng cf maxCount).card ≤ maxCount := by
  unfold generatePassengerDestinations
  obtain ⟨ha, hb⟩ := genLoop_spec rng cf (rng 0 % maxCount + 1) 1 ∅ (by simp)
  refine ⟨ha, le_trans hb ?_⟩
  have hmod : rng 0 % maxCount < maxCount := Nat.mod_lt _ (by omega)
  simp only [Finset.card_empty]
  omega

/-- Witness for the amended C4 at a concrete draw stream. -/
theorem claim_C4_witness :
    1 ≤ 2 ∧
      ((∀ d ∈ generatePassengerDestinations (fun _ => 3) 5 2,
        1 ≤ d ∧ d ≤ (FLOORS : Int) ∧ d ≠ 5) ∧
       (generatePassengerDestinations (fun _ => 3) 5 2).card ≤ 2) :=
  ⟨by decide, claim_C4_amended (fun _ => 3) 5 2 (by decide)⟩

/-! ## Claim C5: the log retention cap -/

lemma pushLog_foldl (events : List LogEntry) :
    ∀ logs : List LogEntry, logs.length ≤ MAX_LOG_ENTRIES →
      events.foldl pushLog logs =
        (logs ++ events).drop (logs.length + events.length - MAX_LOG_ENTRIES) := by
  induction events with
  | nil =>
    intro logs h
    simp [Nat.sub_eq_zero_of_le h]
  | cons e es ih =>
    intro logs h
    rw [List.foldl_cons]
    by_cases hfull : MAX_LOG_ENTRIES ≤ logs.length
    · have hlen : logs.length = MAX_LOG_ENTRIES := le_antisymm h hfull
      have hpush : pushLog logs e = logs.drop 1 ++ [e] := by
        unfold pushLog
        rw [if_pos hfull, hlen]
        norm_num [MAX_LOG_ENTRIES]
      have hlen2 : (logs.drop 1 ++ [e]).length = MAX_LOG_ENTRIES := by
        simp [hlen, MAX_LOG_ENTRIES]
      rw [hpush, ih (logs.drop 1 ++ [e]) (le_of_eq hlen2)]
      have hstep : logs.drop 1 ++ ([e] ++ es) = (logs ++ ([e] ++ es)).drop 1 := by
        rw [List.drop_append_of_le_length (by rw [hlen]; norm_num [MAX_LOG_ENTRIES])]
      rw [List.append_assoc, hstep, List.drop_drop]
      have harith : 1 + ((logs.drop 1 ++ [e]).length + es.length - MAX_LOG_ENTRIES)
          = logs.length + (e :: es).length - MAX_LOG_ENTRIES := by
        simp only [List.length_append, List.length_drop, List.length_cons,
          List.length_nil, hlen, MAX_LOG_ENTRIES]
        omega
      rw [harith]
      rfl
    · push_neg at hfull
      have hpush : pushLog logs e = logs ++ [e] := by
        unfold pushLog
        rw [if_neg (not_le.mpr hfull)]
      rw [hpush, ih (logs ++ [e]) (by simp; omega)]
      have hstep : (logs ++ [e]) ++ es = logs ++ e :: es := by simp
      rw [hstep]
      congr 1
      simp only [List.length_append, List.length_cons, List.length_nil]
      omega

/-- C5: starting from a log buffer within the cap
(`MAX_LOG_ENTRIES = 100`), after appending any sequence of events
through `addLog`'s buffer mechanics the buffer holds exactly the
newest `min(total, cap)` events in order (the surviving suffix of all
events ever appended), and in particular never exceeds the cap. -/
theorem claim_C5_logCap (logs events : List LogEntry) (h : logs.length ≤ MAX_LOG_ENTRIES) :
    events.foldl pushLog logs =
      (logs ++ events).drop (logs.length + events.length - MAX_LOG_ENTRIES) ∧
    (events.foldl pushLog logs).length = min (logs.length + events.length) MAX_LOG_ENTRIES := by
  have hmain := pushLog_foldl events logs h
  refine ⟨hmain, ?_⟩
  rw [hmain, List.length_drop, List.length_append]
  omega

/-- Witness for C5: a full buffer of 100 entries plus one more event
still holds exactly 100 entries. -/
theorem claim_C5_witness :
    (List.replicate 100 (⟨LogType.system, 0, none, none⟩ : LogEntry)).length ≤
        MAX_LOG_ENTRIES ∧
      ([(⟨LogType.call, 1, none, none⟩ : LogEntry)].foldl pushLog
          (List.replicate 100 (⟨LogType.system, 0, none, none⟩ : LogEntry))).length =
        min ((List.replicate 100 (⟨LogType.system, 0, none, none⟩ : LogEntry)).length +
          [(⟨LogType.call, 1, none, none⟩ : LogEntry)].length) MAX_LOG_ENTRIES :=
  ⟨by simp [MAX_LOG_ENTRIES],
   (claim_C5_logCap (List.replicate 100 (⟨LogType.system, 0, none, none⟩ : LogEntry))
     [(⟨LogType.call, 1, none, none⟩ : LogEntry)] (by simp [MAX_LOG_ENTRIES])).2⟩

/-! ## Claim C6: `createFloorCall` validation -/

/-- C6: `createFloorCall` fails exactly when the floor is out of
`[1, F]`, or is floor 1 with direction Down, or floor `F` with
direction Up; on success the returned call carries the requested
floor and direction, no assignment, and a fresh id (strictly above
the previous counter value, which the call advances by one); and for
every floor strictly between the boundaries both directions
succeed. -/
theorem claim_C6_createFloorCall (floor : Int) (direction : CallDirection)
    (counter now : Nat) :
    ((∃ err, createFloorCall floor direction counter now = .error err) ↔
      (floor < 1 ∨ (FLOORS : Int) < floor ∨ (floor = 1 ∧ direction = CallDirection.down) ∨
        (floor = (FLOORS : Int) ∧ direction = CallDirection.up))) ∧
    (∀ c counter1, createFloorCall floor direction counter now = .ok (c, counter1) →
      c.floor = floor ∧ c.direction = direction ∧ c.assignedElevator = none ∧
      c.id = counter + 1 ∧ counter1 = counter + 1 ∧ counter < c.id) ∧
    (1 < floor → floor < (FLOORS : Int) →
      ∃ c, createFloorCall floor direction counter now = .ok (c, counter + 1)) := by
  unfold createFloorCall
  split_ifs with h1 h2 h3
  · refine ⟨⟨fun _ => ?_, fun _ => ⟨.invalidFloor, rfl⟩⟩, ?_, ?_⟩
    · tauto
    · intro c counter1 hok
      exact absurd hok (by simp)
    · intro hlo hhi
      rcases h1 with h | h <;> omega
  · obtain ⟨hf, hd⟩ := h2
    refine ⟨⟨fun _ => ?_, fun _ => ⟨.cannotGoDownFromGround, rfl⟩⟩, ?_, ?_⟩
    · exact Or.inr (Or.inr (Or.inl ⟨hf, hd⟩))
    · intro c counter1 hok
      exact absurd hok (by simp)
    · intro hlo hhi
      omega
  · obtain ⟨hf, hd⟩ := h3
    refine ⟨⟨fun _ => ?_, fun _ => ⟨.cannotGoUpFromTop, rfl⟩⟩, ?_, ?_⟩
    · exact Or.inr (Or.inr (Or.inr ⟨hf, hd⟩))
    · intro c counter1 hok
      exact absurd hok (by simp)
    · intro hlo hhi
      omega
  · push_neg at h1
    refine ⟨⟨fun hex => ?_, fun hcond => ?_⟩, ?_, ?_⟩
    · obtain ⟨err, herr⟩ := hex
      exact absurd herr (by simp)
    · exfalso
      rcases hcond with hc | hc | hc | hc
      · omega
      · omega
      · exact h2 hc
      · exact h3 hc
    · intro c counter1 hok
      simp only [Except.ok.injEq, Prod.mk.injEq] at hok
      obtain ⟨hc, hcnt⟩ := hok
      subst hc
      exact ⟨rfl, rfl, rfl, rfl, hcnt.symm, Nat.lt_succ_self counter⟩
    · intro _ _
      exact ⟨_, rfl⟩

/-- Witness for C6 at the spec's interior-floor example: floor 5
going up succeeds with the fresh id. -/
theorem claim_C6_witness :
    ∃ c, createFloorCall 5 CallDirection.up 0 0 = .ok (c, 1) :=
  (claim_C6_createFloorCall 5 CallDirection.up 0 0).2.2 (by decide) (by decide)

/-! ## Claim C7: idle fleet with empty queue is a tick fixed point -/

lemma foldl_fixed {α β : Type} (f : β → α → β) (b : β) :
    ∀ l : List α, (∀ a ∈ l, f b a = b) → l.foldl f b = b := by
  intro l
  induction l with
  | nil => intro _; rfl
  | cons x xs ih =>
    intro h
    rw [List.foldl_cons, h x (List.mem_cons_self x xs)]
    exact ih (fun a ha => h a (List.mem_cons_of_mem x ha))

/-- C7: a system state with no pending calls in which every car is
available (neither moving nor loading), idle, and has no destinations
is a fixed point of the tick (`processElevatorLogic`), for any tick
timestamp, and hence for any sequence of repeated ticks. -/
theorem claim_C7_tick_fixed_point (s : SystemState)
    (hpending : s.pendingCalls = [])
    (hcars : ∀ e ∈ s.elevators, e.isMoving = false ∧ e.isLoading = false ∧
      e.direction = Direction.idle ∧ e.destinationFloors = ∅) :
    (∀ now, processElevatorLogic now s = s) ∧
    (∀ nows : List Nat, nows.foldl (fun st t => processElevatorLogic t st) s = s) := by
  have hstep : ∀ now i, processCar now s i = s := by
    intro now i
    unfold processCar
    rcases hget : s.elevators[i]? with _ | e
    · rfl
    · have hmem : e ∈ s.elevators := List.getElem?_mem hget
      obtain ⟨hmv, hld, hdir, hdest⟩ := hcars e hmem
      have hstop : ¬ shouldElevatorStop e e.currentFloor s.pendingCalls := by
        rw [hpending]
        unfold shouldElevatorStop
        rw [hdest]
        simp
      have hhandle : handleElevatorAtFloor s i now = s := by
        unfold handleElevatorAtFloor
        rw [hget]
        dsimp only
        rw [if_neg hstop]
      have hnextdest : getNextDestination e s.pendingCalls = none := by
        have hD : allDestinations e s.pendingCalls = ∅ := by
          rw [hpending]
          unfold allDestinations
          rw [hdest]
          simp
        unfold getNextDestination
        rw [(sortedDestinations_eq_nil e s.pendingCalls).mpr hD]
      have hmove : moveElevatorToNextDestination s i now = s := by
        unfold moveElevatorToNextDestination
        rw [hget]
        dsimp only
        rw [hnextdest]
        dsimp only
        rw [hdir]
        simp
      have hcond : (e.isMoving || e.isLoading) = false := by rw [hmv, hld]; rfl
      dsimp only
      rw [hcond]
      simp only [Bool.false_eq_true, if_false]
      rw [hhandle, hmove]
  have htick : ∀ now, processElevatorLogic now s = s := by
    intro now
    unfold processElevatorLogic
    rw [foldl_fixed (processCar now) s (List.range s.elevators.length)
      (fun i _ => hstep now i)]
    unfold reassignUnassignedCalls
    rw [hpending]
    rfl
  refine ⟨htick, ?_⟩
  intro nows
  induction nows with
  | nil => rfl
  | cons t ts ih =>
    rw [List.foldl_cons, htick t]
    exact ih

/-- Witness for C7: a one-car fleet, idle at floor 1 with nothing to
do, is unchanged by a tick. -/
theorem claim_C7_witness :
    processElevatorLogic 0
        ⟨[⟨1, 1, Direction.idle, false, false, ∅, 0, 0⟩], [], [], false, 0, 0⟩ =
      ⟨[⟨1, 1, Direction.idle, false, false, ∅, 0, 0⟩], [], [], false, 0, 0⟩ :=
  (claim_C7_tick_fixed_point
    ⟨[⟨1, 1, Direction.idle, false, false, ∅, 0, 0⟩], [], [], false, 0, 0⟩
    rfl (by decide)).1 0

/-! ## Claim C10: `addFloorCall` never touches the cars -/

/-- C10: `addFloorCall` leaves the fleet untouched (every car, all
fields) and appends exactly one entry — the call, assigned or not —
to the pending queue; only the queue and the log change. -/
theorem claim_C10_addFloorCall_frame (now : Nat) (s : SystemState) (call : FloorCall) :
    (addFloorCall now s call).elevators = s.elevators ∧
    (addFloorCall now s call).totalCallsProcessed = s.totalCallsProcessed ∧
    ∃ c, (addFloorCall now s call).pendingCalls = s.pendingCalls ++ [c] ∧
      c.id = call.id ∧ c.floor = call.floor ∧ c.direction = call.direction := by
  unfold addFloorCall
  rcases hbest : findBestElevator s.elevators call with _ | best
  · exact ⟨rfl, rfl, call, rfl, rfl, rfl, rfl⟩
  · exact ⟨rfl, rfl, { call with assignedElevator := some best.id }, rfl, rfl, rfl, rfl⟩

/-! ## Claims C8 and C9: the stop-handling pass -/

lemma dropoff_state (s : SystemState) (i : Nat) (e : Elevator) (floor : Int) (now : Nat) :
    (handlePassengerDropoff s i e floor now).pendingCalls = s.pendingCalls ∧
    (handlePassengerDropoff s i e floor now).totalCallsProcessed = s.totalCallsProcessed ∧
    ∃ e1, (handlePassengerDropoff s i e floor now).elevators = s.elevators.set i e1 ∧
      e1.destinationFloors = e.destinationFloors.erase floor ∧
      e1.passengers = (e.destinationFloors.erase floor).card ∧
      (e.destinationFloors.erase floor = ∅ → e1.direction = Direction.idle) := by
  unfold handlePassengerDropoff
  dsimp only
  by_cases hemp : e.destinationFloors.erase floor = ∅
  · rw [if_pos hemp]
    refine ⟨rfl, rfl,
      { e with destinationFloors := e.destinationFloors.erase floor,
               passengers := (e.destinationFloors.erase floor).card,
               lastActivity := now, direction := Direction.idle }, ?_, rfl, rfl, fun _ => rfl⟩
    show (s.elevators.set i _).set i _ = s.elevators.set i _
    rw [List.set_set]
  · rw [if_neg hemp]
    exact ⟨rfl, rfl,
      { e with destinationFloors := e.destinationFloors.erase floor,
               passengers := (e.destinationFloors.erase floor).card,
               lastActivity := now }, rfl, rfl, rfl, fun h => absurd h hemp⟩

/-- C8: for an available car whose current floor is in its
destination set, one stop-handling pass removes that floor from the
destinations, recomputes the passenger count as the size of the
remaining destinations, and sets the direction to idle when no
destinations remain (regardless of whether a pickup also fires at the
same floor). -/
theorem claim_C8_dropoff_clears (s : SystemState) (i : Nat) (e : Elevator) (now : Nat)
    (hget : s.elevators[i]? = some e)
    (_hmv : e.isMoving = false) (_hld : e.isLoading = false)
    (hdest : e.currentFloor ∈ e.destinationFloors) :
    ∃ e1, (handleElevatorAtFloor s i now).elevators[i]? = some e1 ∧
      e1.destinationFloors = e.destinationFloors.erase e.currentFloor ∧
      e1.passengers = (e.destinationFloors.erase e.currentFloor).card ∧
      (e.destinationFloors.erase e.currentFloor = ∅ → e1.direction = Direction.idle) := by
  have hlen : i < s.elevators.length := by
    rcases List.getElem?_eq_some_iff.mp hget with ⟨h, _⟩
    exact h
  unfold handleElevatorAtFloor
  rw [hget]
  dsimp only
  rw [if_pos (show shouldElevatorStop e e.currentFloor s.pendingCalls from Or.inl hdest)]
  rw [if_pos hdest]
  obtain ⟨hp, hc, e1, helev, hdf, hpass, hidle⟩ := dropoff_state s i e e.currentFloor now
  rw [helev]
  rw [List.getElem?_set_self hlen]
  dsimp only
  split
  · refine ⟨{ e1 with isLoading := true, lastActivity := now }, ?_, hdf, hpass, hidle⟩
    show ((handlePassengerDropoff s i e e.currentFloor now).elevators.set i _)[i]? = _
    rw [helev, List.set_set]
    exact List.getElem?_set_self hlen
  · exact ⟨e1, by rw [helev]; exact List.getElem?_set_self hlen, hdf, hpass, hidle⟩

/-- Witness for C8 at the spec's example: a car at floor 5 with
destinations `{5}` and one passenger ends the stop-handling pass with
no destinations, zero passengers, idle. -/
theorem claim_C8_witness :
    ∃ e1, (handleElevatorAtFloor
        ⟨[⟨1, 5, Direction.up, false, false, {5}, 1, 0⟩], [], [], false, 0, 0⟩
        0 7).elevators[0]? = some e1 ∧
      e1.destinationFloors = ({5} : Finset Int).erase 5 ∧
      e1.passengers = (({5} : Finset Int).erase 5).card ∧
      (({5} : Finset Int).erase 5 = ∅ → e1.direction = Direction.idle) :=
  claim_C8_dropoff_clears
    ⟨[⟨1, 5, Direction.up, false, false, {5}, 1, 0⟩], [], [], false, 0, 0⟩
    0 ⟨1, 5, Direction.up, false, false, {5}, 1, 0⟩ 7 rfl rfl rfl (by decide)

lemma find?_decomp {α : Type} (p : α → Bool) :
    ∀ (l : List α) (c : α), l.find? p = some c →
      ∃ l₁ l₂, l = l₁ ++ c :: l₂ ∧ (∀ x ∈ l₁, p x = false) ∧ p c = true := by
  intro l
  induction l with
  | nil => intro c h; exact absurd h (by simp)
  | cons a t ih =>
    intro c h
    rcases hpa : p a with _ | _
    · rw [List.find?_cons_of_neg _ (by simp [hpa])] at h
      obtain ⟨l₁, l₂, h1, h2, h3⟩ := ih c h
      refine ⟨a :: l₁, l₂, by rw [h1]; rfl, ?_, h3⟩
      intro x hx
      rcases List.mem_cons.mp hx with rfl | hx'
      · exact hpa
      · exact h2 x hx'
    · rw [List.find?_cons_of_pos _ (by simp [hpa])] at h
      simp only [Option.some.injEq] at h
      subst h
      refine ⟨[], t, rfl, ?_, hpa⟩
      intro x hx
      exact absurd hx (List.not_mem_nil x)

lemma filter_ne_first (l₁ l₂ : List FloorCall) (c : FloorCall)
    (hnodup : ((l₁ ++ c :: l₂).map (fun x => x.id)).Nodup) :
    (l₁ ++ c :: l₂).filter (fun x => decide (x.id ≠ c.id)) = l₁ ++ l₂ := by
  rw [List.map_append, List.map_cons, List.nodup_append] at hnodup
  obtain ⟨h1, h2, hdisj⟩ := hnodup
  have hcid2 : c.id ∉ l₂.map (fun x => x.id) := (List.nodup_cons.mp h2).1
  have hl1 : ∀ x ∈ l₁, (fun x => decide (x.id ≠ c.id)) x = true := by
    intro x hx
    simp only [decide_eq_true_eq]
    intro heq
    exact hdisj (List.mem_map_of_mem _ hx) (by rw [heq]; exact List.mem_cons_self _ _)
  have hl2 : ∀ x ∈ l₂, (fun x => decide (x.id ≠ c.id)) x = true := by
    intro x hx
    simp only [decide_eq_true_eq]
    intro heq
    exact hcid2 (by rw [← heq]; exact List.mem_map_of_mem _ hx)
  rw [List.filter_append, List.filter_cons]
  have hcfalse : decide (c.id ≠ c.id) = false := by simp
  rw [hcfalse]
  simp only [Bool.false_eq_true, if_false]
  rw [List.filter_eq_self.mpr hl1, List.filter_eq_self.mpr hl2]

/-- C9: in one stop-handling pass of a car, either the pending queue
and the processed-call counter are unchanged, or exactly one call —
the first call in queue order assigned to this car at its current
floor — is removed and the counter increases by exactly one, even
when several such calls are queued (assuming the queued call ids are
distinct, as the factory guarantees). -/
theorem claim_C9_single_removal (s : SystemState) (i : Nat) (e : Elevator) (now : Nat)
    (hget : s.elevators[i]? = some e)
    (hnodup : (s.pendingCalls.map (fun c => c.id)).Nodup) :
    ((handleElevatorAtFloor s i now).pendingCalls = s.pendingCalls ∧
     (handleElevatorAtFloor s i now).totalCallsProcessed = s.totalCallsProcessed) ∨
    (∃ c l₁ l₂, s.pendingCalls = l₁ ++ c :: l₂ ∧
      c.floor = e.currentFloor ∧ c.assignedElevator = some e.id ∧
      (∀ c' ∈ l₁, ¬(c'.floor = e.currentFloor ∧ c'.assignedElevator = some e.id)) ∧
      (handleElevatorAtFloor s i now).pendingCalls = l₁ ++ l₂ ∧
      (handleElevatorAtFloor s i now).totalCallsProcessed = s.totalCallsProcessed + 1) := by
  unfold handleElevatorAtFloor
  rw [hget]
  dsimp only
  by_cases hstop : shouldElevatorStop e e.currentFloor s.pendingCalls
  · rw [if_pos hstop]
    obtain ⟨hp, hc, e1, helev, _, _, _⟩ := dropoff_state s i e e.currentFloor now
    have hs1p : (if e.currentFloor ∈ e.destinationFloors
        then handlePassengerDropoff s i e e.currentFloor now else s).pendingCalls =
        s.pendingCalls := by
      split
      · exact hp
      · rfl
    have hs1c : (if e.currentFloor ∈ e.destinationFloors
        then handlePassengerDropoff s i e e.currentFloor now else s).totalCallsProcessed =
        s.totalCallsProcessed := by
      split
      · exact hc
      · rfl
    rcases hre : (if e.currentFloor ∈ e.destinationFloors
        then handlePassengerDropoff s i e e.currentFloor now else s).elevators[i]?
        with _ | e1'
    · exact Or.inl ⟨hs1p, hs1c⟩
    · dsimp only
      split
      next c hfind =>
        right
        rw [hs1p] at hfind
        obtain ⟨l₁, l₂, hdec, hfalse, htrue⟩ := find?_decomp _ s.pendingCalls c hfind
        have htrue' := of_decide_eq_true htrue
        refine ⟨c, l₁, l₂, hdec, htrue'.1, htrue'.2, ?_, ?_, ?_⟩
        · intro c' hc' hcon
          exact absurd hcon (by simpa using hfalse c' hc')
        · show (if e.currentFloor ∈ e.destinationFloors
              then handlePassengerDropoff s i e e.currentFloor now
              else s).pendingCalls.filter (fun x => decide (x.id ≠ c.id)) = l₁ ++ l₂
          rw [hs1p, hdec]
          exact filter_ne_first l₁ l₂ c (hdec ▸ hnodup)
        · show (if e.currentFloor ∈ e.destinationFloors
              then handlePassengerDropoff s i e e.currentFloor now
              else s).totalCallsProcessed + 1 = s.totalCallsProcessed + 1
          rw [hs1c]
      next hfind =>
        exact Or.inl ⟨hs1p, hs1c⟩
  · rw [if_neg hstop]
    exact Or.inl ⟨rfl, rfl⟩

/-- Witness for C9: an idle car at floor 2 with two pending calls
assigned to it at floor 2; one pass removes only the first. -/
theorem claim_C9_witness :
    ((handleElevatorAtFloor
        ⟨[⟨1, 2, Direction.idle, false, false, ∅, 0, 0⟩],
          [⟨1, 2, CallDirection.up, 0, some 1⟩, ⟨2, 2, CallDirection.up, 0, some 1⟩],
          [], false, 0, 0⟩ 0 3).pendingCalls =
        [⟨1, 2, CallDirection.up, 0, some 1⟩, ⟨2, 2, CallDirection.up, 0, some 1⟩] ∧
      (handleElevatorAtFloor
        ⟨[⟨1, 2, Direction.idle, false, false, ∅, 0, 0⟩],
          [⟨1, 2, CallDirection.up, 0, some 1⟩, ⟨2, 2, CallDirection.up, 0, some 1⟩],
          [], false, 0, 0⟩ 0 3).totalCallsProcessed = 0) ∨
    (∃ c l₁ l₂,
      [(⟨1, 2, CallDirection.up, 0, some 1⟩ : FloorCall),
       ⟨2, 2, CallDirection.up, 0, some 1⟩] = l₁ ++ c :: l₂ ∧
      c.floor = 2 ∧ c.assignedElevator = some 1 ∧
      (∀ c' ∈ l₁, ¬(c'.floor = 2 ∧ c'.assignedElevator = some 1)) ∧
      (handleElevatorAtFloor
        ⟨[⟨1, 2, Direction.idle, false, false, ∅, 0, 0⟩],
          [⟨1, 2, CallDirection.up, 0, some 1⟩, ⟨2, 2, CallDirection.up, 0, some 1⟩],
          [], false, 0, 0⟩ 0 3).pendingCalls = l₁ ++ l₂ ∧
      (handleElevatorAtFloor
        ⟨[⟨1, 2, Direction.idle, false, false, ∅, 0, 0⟩],
          [⟨1, 2, CallDirection.up, 0, some 1⟩, ⟨2, 2, CallDirection.up, 0, some 1⟩],
          [], false, 0, 0⟩ 0 3).totalCallsProcessed = 0 + 1) :=
  claim_C9_single_removal
    ⟨[⟨1, 2, Direction.idle, false, false, ∅, 0, 0⟩],
      [⟨1, 2, CallDirection.up, 0, some 1⟩, ⟨2, 2, CallDirection.up, 0, some 1⟩],
      [], false, 0, 0⟩ 0 ⟨1, 2, Direction.idle, false, false, ∅, 0, 0⟩ 3 rfl (by decide)

end Elev
